import Mathlib

/-!
Verification of the `bgjk` crate: a boolean GJK (Gilbert–Johnson–Keerthi)
intersection test between two convex hulls in 3-space, given as point lists.

The source (`src/lib.rs`) works on `Vec3` of three `f32` components and uses
only ring operations (negation, subtraction, multiplication, addition) and
order comparisons against zero — no division and no square roots.  We embed
the code over an arbitrary linearly ordered commutative ring `K` (the exact
reading of the floating-point code); concrete runs are evaluated at `K = ℤ`,
where every input appearing in the claims is exactly representable in `f32`
and all intermediate `f32` computations are exact, so the `ℤ` evaluation
agrees with the compiled code on those inputs.

The unbounded `loop` of `bgjk` is embedded with explicit fuel
(`bgjkFuel`); `BGJK.Returns h1 h2 b` states that some amount of fuel makes
the run finish with answer `b`, i.e. that the Rust loop terminates with `b`.
-/

namespace BGJK

/-- `Vec3` from the source: three components x, y, z. -/
structure Vec3 (K : Type) where
  x : K
  y : K
  z : K
deriving DecidableEq

variable {K : Type} [LinearOrderedCommRing K]

/-- `impl Neg for Vec3`: componentwise negation. -/
instance : Neg (Vec3 K) := ⟨fun a => ⟨-a.x, -a.y, -a.z⟩⟩

/-- `impl Sub for Vec3`: componentwise subtraction. -/
instance : Sub (Vec3 K) := ⟨fun a b => ⟨a.x - b.x, a.y - b.y, a.z - b.z⟩⟩

theorem Vec3.neg_def (a : Vec3 K) : -a = ⟨-a.x, -a.y, -a.z⟩ := rfl

theorem Vec3.sub_def (a b : Vec3 K) : a - b = ⟨a.x - b.x, a.y - b.y, a.z - b.z⟩ := rfl

/-- `Vec3::dot`. -/
def dot (a b : Vec3 K) : K :=
  a.x * b.x + a.y * b.y + a.z * b.z

/-- `Vec3::ones`. -/
def ones : Vec3 K := ⟨1, 1, 1⟩

/-- `Vec3::default()`: the zero vector. -/
def zero : Vec3 K := ⟨0, 0, 0⟩

/-- `cross`. -/
def cross (a b : Vec3 K) : Vec3 K :=
  ⟨a.y * b.z - a.z * b.y, a.z * b.x - a.x * b.z, a.x * b.y - a.y * b.x⟩

/-- `cross3(a, b, c) = cross(cross(a, b), c)`. -/
def cross3 (a b c : Vec3 K) : Vec3 K := cross (cross a b) c

/-- `dcross3(a, b) = cross3(a, b, a)`. -/
def dcross3 (a b : Vec3 K) : Vec3 K := cross3 a b a

/-- The loop body of `farthest`: fold one vertex into the running
`(max, max_vertex)` accumulator, where `max : Option K` is `none` until the
first vertex has been seen and a later vertex replaces the current maximizer
only on a strictly greater dot product. -/
def farthestStep (direction : Vec3 K) (acc : Option K × Vec3 K) (vertex : Vec3 K) :
    Option K × Vec3 K :=
  let current := dot vertex direction
  match acc with
  | (some value, maxVertex) =>
      if current > value then (some current, vertex) else (some value, maxVertex)
  | (none, _) => (some current, vertex)

/-- `farthest(vertices, direction)`: the vertex maximizing the dot product with
`direction`, the first maximizer winning ties; `Vec3::default()` (the zero
vector) when `vertices` is empty. -/
def farthest (vertices : List (Vec3 K)) (direction : Vec3 K) : Vec3 K :=
  (vertices.foldl (farthestStep direction) ((none : Option K), zero)).2

/-- `support(vertices_a, vertices_b, direction)`. -/
def support (verticesA verticesB : List (Vec3 K)) (direction : Vec3 K) : Vec3 K :=
  farthest verticesA direction - farthest verticesB (-direction)

/-- The mutable locals of `bgjk`'s loop: the simplex slots `ap, bp, cp, dp`,
the search direction `sp` and the width `w : i32`. -/
structure GState (K : Type) where
  ap : Vec3 K
  bp : Vec3 K
  cp : Vec3 K
  dp : Vec3 K
  sp : Vec3 K
  w : Int
deriving DecidableEq

/-- `check_tetra(Tetra(ap, bp, cp, dp), sp, w, ao, ab, ac, abc)`.  The Rust
function writes through the four aliases `te.0 .. te.3` (with `te.0 = ap`
never written); we return the new values of `(bp, cp, dp, sp, w)`. -/
def check_tetra (ap bp cp dp : Vec3 K) (ao ab ac abc : Vec3 K) :
    Vec3 K × Vec3 K × Vec3 K × Vec3 K × Int :=
  let ab_abc := cross ab abc
  if dot ab_abc ao > 0 then
    (ap, bp, dp, dcross3 ab ao, 2)
  else
    let acp := cross abc ac
    if dot acp ao > 0 then
      (ap, cp, dp, dcross3 ac ao, 2)
    else
      (ap, bp, cp, abc, 3)

/-- `simplex(&mut ap, &mut bp, &mut cp, &mut dp, &mut sp, &mut w)`: one
refinement step.  Returns the Rust boolean result together with the new
values of the six locals (`ap` is read-only in the source). -/
def simplex (st : GState K) : Bool × GState K :=
  let ao := -st.ap
  let ab := st.bp - st.ap
  let ac := st.cp - st.ap
  let abc := cross ab ac
  if st.w = 2 then
    let ab_abc := cross ab abc
    if dot ab_abc ao > 0 then
      (false, { st with cp := st.bp, bp := st.ap, sp := dcross3 ab ao })
    else
      let abc_ac := cross abc ac
      if dot abc_ac ao > 0 then
        (false, { st with bp := st.ap, sp := dcross3 ac ao })
      else if dot abc ao > 0 then
        (false, { st with dp := st.cp, cp := st.bp, bp := st.ap, sp := abc, w := 3 })
      else
        (false, { st with dp := st.bp, bp := st.ap, sp := -abc, w := 3 })
  else if st.w = 3 then
    if dot abc ao > 0 then
      match check_tetra st.ap st.bp st.cp st.dp ao ab ac abc with
      | (b₂, c₂, d₂, s₂, w₂) =>
        (false, { st with bp := b₂, cp := c₂, dp := d₂, sp := s₂, w := w₂ })
    else
      let ad := st.dp - st.ap
      let acd := cross ac ad
      if dot acd ao > 0 then
        match check_tetra st.ap st.cp st.dp st.dp ao ac ad acd with
        | (b₂, c₂, d₂, s₂, w₂) =>
          (false, { st with bp := b₂, cp := c₂, dp := d₂, sp := s₂, w := w₂ })
      else
        let adb := cross ad ab
        if dot adb ao > 0 then
          match check_tetra st.ap st.dp st.bp st.dp ao ad ab adb with
          | (b₂, c₂, d₂, s₂, w₂) =>
            (false, { st with bp := b₂, cp := c₂, dp := d₂, sp := s₂, w := w₂ })
        else
          (true, st)
  else
    (false, st)

/-- One iteration of the `loop` in `bgjk`: fetch the support point for the
current direction, exit with `false` on a strictly negative projection, exit
with `true` when `simplex` reports containment, otherwise continue with the
updated state. -/
def step (h1 h2 : List (Vec3 K)) (st : GState K) : Sum Bool (GState K) :=
  let ap := support h1 h2 st.sp
  if dot ap st.sp < 0 then
    Sum.inl false
  else
    match simplex { st with ap := ap } with
    | (true, _) => Sum.inl true
    | (false, st') => Sum.inr st'

/-- The `loop` of `bgjk`, with explicit fuel (`none` = fuel exhausted). -/
def bgjkLoop (h1 h2 : List (Vec3 K)) : Nat → GState K → Option Bool
  | 0, _ => none
  | n + 1, st =>
    match step h1 h2 st with
    | Sum.inl b => some b
    | Sum.inr st' => bgjkLoop h1 h2 n st'

/-- The initialization of `bgjk` before the loop: `none` when the early
`return false` fires, otherwise the state entering the loop. -/
def bgjkInit (h1 h2 : List (Vec3 K)) : Option (GState K) :=
  let sp := ones (K := K)
  let cp := support h1 h2 sp
  let sp := -cp
  let bp := support h1 h2 sp
  if dot bp sp < 0 then
    none
  else
    some { ap := zero, bp := bp, cp := cp, dp := zero,
           sp := dcross3 (cp - bp) (-bp), w := 2 }

/-- `bgjk(hull1, hull2)` with explicit fuel for the unbounded loop. -/
def bgjkFuel (fuel : Nat) (h1 h2 : List (Vec3 K)) : Option Bool :=
  match bgjkInit h1 h2 with
  | none => some false
  | some st => bgjkLoop h1 h2 fuel st

/-- `bgjk(hull1, hull2)` terminates with result `b`. -/
def Returns (h1 h2 : List (Vec3 K)) (b : Bool) : Prop :=
  ∃ fuel, bgjkFuel fuel h1 h2 = some b

/-- The loop state after `n` completed iterations (`none` once the loop has
returned). -/
def stateAfter (h1 h2 : List (Vec3 K)) : Nat → GState K → Option (GState K)
  | 0, st => some st
  | n + 1, st =>
    match stateAfter h1 h2 n st with
    | none => none
    | some st' =>
      match step h1 h2 st' with
      | Sum.inl _ => none
      | Sum.inr st'' => some st''

/-! ### Properties of `farthest` -/

/-- Unfolding of one `farthest` loop iteration on a non-empty accumulator. -/
theorem farthestStep_some (d v y : Vec3 K) :
    farthestStep d (some (dot v d), v) y =
      if dot y d > dot v d then (some (dot y d), y) else (some (dot v d), v) :=
  rfl

/-- Invariant of the `farthest` loop: starting from the accumulator
`(some (dot v d), v)`, the fold over `l` returns the earliest maximizer of
`v :: l` — the list splits around the result into a part of strictly
smaller dot products and a part of no larger ones. -/
theorem foldl_farthestStep_spec (d : Vec3 K) (l : List (Vec3 K)) :
    ∀ v : Vec3 K,
      ∃ l₁ l₂,
        v :: l = l₁ ++ (l.foldl (farthestStep d) (some (dot v d), v)).2 :: l₂
        ∧ (∀ p ∈ l₁,
            dot p d < dot (l.foldl (farthestStep d) (some (dot v d), v)).2 d)
        ∧ (∀ p ∈ l₂,
            dot p d ≤ dot (l.foldl (farthestStep d) (some (dot v d), v)).2 d) := by
  induction l with
  | nil =>
    intro v
    exact ⟨[], [], rfl, by simp, by simp⟩
  | cons y ys ih =>
    intro v
    simp only [List.foldl_cons, farthestStep_some]
    by_cases hyv : dot y d > dot v d
    · rw [if_pos hyv]
      obtain ⟨l₁, l₂, hsplit, hlt, hle⟩ := ih y
      set r := (ys.foldl (farthestStep d) (some (dot y d), y)).2 with hr
      have hyr : dot y d ≤ dot r d := by
        rcases l₁ with _ | ⟨a, t⟩
        · simp only [List.nil_append, List.cons.injEq] at hsplit
          rw [hsplit.1]
        · simp only [List.cons_append, List.cons.injEq] at hsplit
          exact le_of_lt (hsplit.1 ▸ hlt a (by simp))
      exact ⟨v :: l₁, l₂, by rw [List.cons_append, ← hsplit],
        by
          intro p hp
          rcases List.mem_cons.mp hp with h | h
          · exact h ▸ lt_of_lt_of_le hyv hyr
          · exact hlt p h,
        hle⟩
    · rw [if_neg hyv]
      obtain ⟨l₁, l₂, hsplit, hlt, hle⟩ := ih v
      set r := (ys.foldl (farthestStep d) (some (dot v d), v)).2 with hr
      rcases l₁ with _ | ⟨a, t⟩
      · simp only [List.nil_append, List.cons.injEq] at hsplit
        refine ⟨[], y :: ys, by simp [hsplit.1], by simp, ?_⟩
        intro p hp
        rcases List.mem_cons.mp hp with h | h
        · rw [← hsplit.1]
          exact h ▸ le_of_not_lt hyv
        · exact hle p (hsplit.2 ▸ h)
      · simp only [List.cons_append, List.cons.injEq] at hsplit
        have hav : a = v := hsplit.1.symm
        have hvr : dot v d < dot r d := hav ▸ hlt a (by simp)
        refine ⟨v :: y :: t, l₂, ?_, ?_, hle⟩
        · rw [List.cons_append, List.cons_append, ← hsplit.2]
        · intro p hp
          rcases List.mem_cons.mp hp with h | h
          · exact h ▸ hvr
          · rcases List.mem_cons.mp h with h' | h'
            · exact h' ▸ lt_of_le_of_lt (le_of_not_lt hyv) hvr
            · exact hlt p (hav ▸ List.mem_cons_of_mem a h')

/-- `farthest` on a non-empty list returns the earliest maximizer: the list
splits around the returned vertex into earlier vertices of strictly smaller
dot products and later ones of no larger dot products. -/
theorem farthest_split (l : List (Vec3 K)) (d : Vec3 K) (hne : l ≠ []) :
    ∃ l₁ l₂,
      l = l₁ ++ farthest l d :: l₂
      ∧ (∀ p ∈ l₁, dot p d < dot (farthest l d) d)
      ∧ (∀ p ∈ l₂, dot p d ≤ dot (farthest l d) d) := by
  rcases l with _ | ⟨x, xs⟩
  · exact absurd rfl hne
  · have : farthest (x :: xs) d = (xs.foldl (farthestStep d) (some (dot x d), x)).2 := rfl
    rw [this]
    exact foldl_farthestStep_spec d xs x

/-- Every vertex's projection on `direction` is at most that of
`farthest vertices direction`. -/
theorem dot_farthest_ge (l : List (Vec3 K)) (d : Vec3 K) (p : Vec3 K)
    (hp : p ∈ l) : dot p d ≤ dot (farthest l d) d := by
  obtain ⟨l₁, l₂, hsplit, hlt, hle⟩ :=
    farthest_split l d (by rintro rfl; exact absurd hp (List.not_mem_nil p))
  rw [hsplit] at hp
  rcases List.mem_append.mp hp with h | h
  · exact le_of_lt (hlt p h)
  · rcases List.mem_cons.mp h with h' | h'
    · exact le_of_eq (by rw [h'])
    · exact hle p h'

/-- `dot` is additive in its second argument's negation. -/
theorem dot_neg_right (a b : Vec3 K) : dot a (-b) = -(dot a b) := by
  simp only [dot, Vec3.neg_def]
  ring

/-- `dot` distributes over subtraction in its first argument. -/
theorem dot_sub_left (a b c : Vec3 K) : dot (a - b) c = dot a c - dot b c := by
  simp only [dot, Vec3.sub_def]
  ring

/-! ### Concrete inputs used by the claims -/

/-- Hull A of the edge-touching-squares test: the unit square in the plane
z = 0. -/
def sqA : List (Vec3 ℤ) := [⟨0, 0, 0⟩, ⟨1, 0, 0⟩, ⟨0, 1, 0⟩, ⟨1, 1, 0⟩]

/-- Hull B of the edge-touching-squares test: the unit square shifted by one
along x, sharing the edge x = 1 with `sqA`. -/
def sqB : List (Vec3 ℤ) := [⟨1, 0, 0⟩, ⟨2, 0, 0⟩, ⟨1, 1, 0⟩, ⟨2, 1, 0⟩]

/-- A width-3 loop state in which the origin lies above the face `(a, b, c)`
(`dot abc ao > 0`) but inside both edge regions tested by `check_tetra`, so
the step keeps width 3. -/
def tetraState : GState ℤ :=
  ⟨⟨0, 0, -1⟩, ⟨1, 0, -1⟩, ⟨0, 1, -1⟩, ⟨0, 0, -2⟩, ⟨0, 0, 0⟩, 3⟩

/-! ### Theorems -/

/-- C1 counterexample.  The claim says a non-positive projection
(`dot(b, direction) ≤ 0`) at the initialization step already means `bgjk`
reports no intersection there.  But the code tests `< 0.0`, not `≤ 0.0`: on
the input pair of two empty hulls every support point is the origin, the
initialization projection is exactly `0` (hence non-positive), and the run
continues and terminates with `true` instead of reporting `false`. -/
theorem c1_counterexample :
    dot (support ([] : List (Vec3 ℤ)) []
        (-(support ([] : List (Vec3 ℤ)) [] ones)))
      (-(support ([] : List (Vec3 ℤ)) [] ones)) ≤ 0
    ∧ bgjkFuel 3 ([] : List (Vec3 ℤ)) [] = some true := by
  decide

/-- C1 amended: with the comparison made strict (`dot < 0`, as in the code),
the property holds — a strictly negative projection of the support point on
the current direction makes `bgjk` return `false` immediately, both at the
initialization step for point `b` and at any main-loop step for point `a`. -/
theorem c1_strict_negative_returns_false (h1 h2 : List (Vec3 K)) (fuel : Nat)
    (st : GState K) :
    (dot (support h1 h2 (-(support h1 h2 ones))) (-(support h1 h2 ones)) < 0 →
      bgjkFuel fuel h1 h2 = some false)
    ∧ (dot (support h1 h2 st.sp) st.sp < 0 →
      bgjkLoop h1 h2 (fuel + 1) st = some false) := by
  constructor
  · intro h
    simp only [bgjkFuel, bgjkInit]
    rw [if_pos h]
  · intro h
    simp only [bgjkLoop, step]
    rw [if_pos h]

/-- C1 witness: a concrete run through each branch of the amended theorem.
With hulls `{(1,0,0)}` and `{(0,0,0)}` every support point is `(1,0,0)`; the
initialization direction is `(-1,0,0)`, its projection `-1 < 0`, and `bgjk`
returns `false`; a loop state with direction `(-1,0,0)` exits with `false`
likewise. -/
theorem c1_strict_negative_returns_false_witness :
    bgjkFuel 0 [(⟨1, 0, 0⟩ : Vec3 ℤ)] [⟨0, 0, 0⟩] = some false
    ∧ bgjkLoop [(⟨1, 0, 0⟩ : Vec3 ℤ)] [⟨0, 0, 0⟩] 1
        ⟨zero, zero, zero, zero, ⟨-1, 0, 0⟩, 2⟩ = some false :=
  ⟨(c1_strict_negative_returns_false [⟨1, 0, 0⟩] [⟨0, 0, 0⟩] 0
      ⟨zero, zero, zero, zero, ⟨-1, 0, 0⟩, 2⟩).1 (by decide),
   (c1_strict_negative_returns_false [⟨1, 0, 0⟩] [⟨0, 0, 0⟩] 0
      ⟨zero, zero, zero, zero, ⟨-1, 0, 0⟩, 2⟩).2 (by decide)⟩

/-- C2: the two unit squares touching along the shared edge x = 1 are
reported as intersecting — `bgjk(sqA, sqB)` terminates with `true` (all
coordinates and every intermediate `f32` value of this run are small
integers, so the `ℤ` evaluation is exact). -/
theorem c2_edge_touching_squares : Returns sqA sqB true :=
  ⟨3, by decide⟩

/-- C4 counterexample.  The claim concludes that every width-3 refinement
step either confirms intersection or continues with width 2.  In the state
`tetraState` the width is 3, the step does not confirm intersection, and the
resulting width is again 3: when `dot abc ao > 0` but the origin is inside
both edge regions tested by `check_tetra`, the tetrahedron is re-oriented
and the width stays 3. -/
theorem c4_counterexample :
    tetraState.w = 3 ∧ (simplex tetraState).1 = false
    ∧ (simplex tetraState).2.w = 3 := by
  decide

/-- C4 amended: whenever one of the two plane-straddle tests of
`check_tetra` is positive, the simplex is collapsed to the corresponding
line segment and the width is set back to 2; hence every width-3 refinement
step either confirms intersection, or continues with width 2, or — when the
origin is outside no tested edge region — continues with width 3. -/
theorem c4_tetra_refinement (ap bp cp dp ao ab ac abc : Vec3 K)
    (st : GState K) :
    (dot (cross ab abc) ao > 0 →
      check_tetra ap bp cp dp ao ab ac abc = (ap, bp, dp, dcross3 ab ao, 2))
    ∧ (¬ dot (cross ab abc) ao > 0 → dot (cross abc ac) ao > 0 →
      check_tetra ap bp cp dp ao ab ac abc = (ap, cp, dp, dcross3 ac ao, 2))
    ∧ (st.w = 3 →
      (simplex st).1 = true ∨ (simplex st).2.w = 2 ∨ (simplex st).2.w = 3) := by
  refine ⟨fun h => ?_, fun h h' => ?_, fun hw => ?_⟩
  · simp only [check_tetra]
    rw [if_pos h]
  · simp only [check_tetra]
    rw [if_neg h, if_pos h']
  · simp only [simplex, check_tetra]
    rw [if_neg (by omega : ¬ st.w = 2), if_pos hw]
    split_ifs <;> simp

/-- C4 witness: concrete inputs exercising each hypothesis of the amended
theorem — one input where the first straddle test is positive, one where
only the second is, and the width-3 state `tetraState`. -/
theorem c4_tetra_refinement_witness :
    check_tetra (⟨0, 0, 0⟩ : Vec3 ℤ) ⟨1, 1, 1⟩ ⟨2, 2, 2⟩ ⟨3, 3, 3⟩
        ⟨0, -1, 0⟩ ⟨1, 0, 0⟩ ⟨0, 1, 0⟩ ⟨0, 0, 1⟩
      = (⟨0, 0, 0⟩, ⟨1, 1, 1⟩, ⟨3, 3, 3⟩, dcross3 ⟨1, 0, 0⟩ ⟨0, -1, 0⟩, 2)
    ∧ check_tetra (⟨0, 0, 0⟩ : Vec3 ℤ) ⟨1, 1, 1⟩ ⟨2, 2, 2⟩ ⟨3, 3, 3⟩
        ⟨-1, 1, 0⟩ ⟨1, 0, 0⟩ ⟨0, 1, 0⟩ ⟨0, 0, 1⟩
      = (⟨0, 0, 0⟩, ⟨2, 2, 2⟩, ⟨3, 3, 3⟩, dcross3 ⟨0, 1, 0⟩ ⟨-1, 1, 0⟩, 2)
    ∧ ((simplex tetraState).1 = true ∨ (simplex tetraState).2.w = 2
        ∨ (simplex tetraState).2.w = 3) :=
  ⟨(c4_tetra_refinement ⟨0, 0, 0⟩ ⟨1, 1, 1⟩ ⟨2, 2, 2⟩ ⟨3, 3, 3⟩
      ⟨0, -1, 0⟩ ⟨1, 0, 0⟩ ⟨0, 1, 0⟩ ⟨0, 0, 1⟩ tetraState).1 (by decide),
   (c4_tetra_refinement ⟨0, 0, 0⟩ ⟨1, 1, 1⟩ ⟨2, 2, 2⟩ ⟨3, 3, 3⟩
      ⟨-1, 1, 0⟩ ⟨1, 0, 0⟩ ⟨0, 1, 0⟩ ⟨0, 0, 1⟩ tetraState).2.1
      (by decide) (by decide),
   (c4_tetra_refinement ⟨0, 0, 0⟩ ⟨1, 1, 1⟩ ⟨2, 2, 2⟩ ⟨3, 3, 3⟩
      ⟨0, -1, 0⟩ ⟨1, 0, 0⟩ ⟨0, 1, 0⟩ ⟨0, 0, 1⟩ tetraState).2.2 (by decide)⟩

/-- C9: on a non-empty vertex list, `farthest` returns the earliest element
attaining the maximal projection on `direction` — all earlier elements
project strictly lower (ties are broken by the first maximizer found, per
the strict greater-than comparison), all later ones no higher — and on the
empty list it returns the zero vector. -/
theorem c9_farthest_earliest_maximizer (l : List (Vec3 K)) (d : Vec3 K) :
    (l ≠ [] →
      ∃ l₁ l₂,
        l = l₁ ++ farthest l d :: l₂
        ∧ (∀ p ∈ l₁, dot p d < dot (farthest l d) d)
        ∧ (∀ p ∈ l₂, dot p d ≤ dot (farthest l d) d))
    ∧ farthest ([] : List (Vec3 K)) d = zero :=
  ⟨farthest_split l d, rfl⟩

/-- C9 witness: on the list `[(0,0,0), (2,0,0), (2,0,0), (1,0,0)]` with
direction `(1,0,0)`, `farthest` picks the first of the two tied maximizers. -/
theorem c9_farthest_earliest_maximizer_witness :
    ∃ l₁ l₂,
      [(⟨0, 0, 0⟩ : Vec3 ℤ), ⟨2, 0, 0⟩, ⟨2, 0, 0⟩, ⟨1, 0, 0⟩]
        = l₁ ++ farthest [(⟨0, 0, 0⟩ : Vec3 ℤ), ⟨2, 0, 0⟩, ⟨2, 0, 0⟩, ⟨1, 0, 0⟩]
            ⟨1, 0, 0⟩ :: l₂
      ∧ (∀ p ∈ l₁,
          dot p (⟨1, 0, 0⟩ : Vec3 ℤ)
            < dot (farthest [(⟨0, 0, 0⟩ : Vec3 ℤ), ⟨2, 0, 0⟩, ⟨2, 0, 0⟩, ⟨1, 0, 0⟩]
                ⟨1, 0, 0⟩) ⟨1, 0, 0⟩)
      ∧ (∀ p ∈ l₂,
          dot p (⟨1, 0, 0⟩ : Vec3 ℤ)
            ≤ dot (farthest [(⟨0, 0, 0⟩ : Vec3 ℤ), ⟨2, 0, 0⟩, ⟨2, 0, 0⟩, ⟨1, 0, 0⟩]
                ⟨1, 0, 0⟩) ⟨1, 0, 0⟩) :=
  (c9_farthest_earliest_maximizer
    [(⟨0, 0, 0⟩ : Vec3 ℤ), ⟨2, 0, 0⟩, ⟨2, 0, 0⟩, ⟨1, 0, 0⟩] ⟨1, 0, 0⟩).1
    (by decide)

/-- C8: `support(hullA, hullB, d) = farthest(hullA, d) - farthest(hullB, -d)`,
and it is a farthest point of the Minkowski difference along `d`: its
projection on `d` dominates that of every difference `p - q` with
`p ∈ hullA`, `q ∈ hullB`. -/
theorem c8_support_minkowski (h1 h2 : List (Vec3 K)) (d : Vec3 K) :
    support h1 h2 d = farthest h1 d - farthest h2 (-d)
    ∧ ∀ p ∈ h1, ∀ q ∈ h2, dot (p - q) d ≤ dot (support h1 h2 d) d := by
  refine ⟨rfl, fun p hp q hq => ?_⟩
  have hpa : dot p d ≤ dot (farthest h1 d) d := dot_farthest_ge h1 d p hp
  have hqb : dot q (-d) ≤ dot (farthest h2 (-d)) (-d) :=
    dot_farthest_ge h2 (-d) q hq
  rw [dot_neg_right, dot_neg_right] at hqb
  have hqb' : dot (farthest h2 (-d)) d ≤ dot q d := by linarith
  show dot (p - q) d ≤ dot (farthest h1 d - farthest h2 (-d)) d
  rw [dot_sub_left, dot_sub_left]
  exact sub_le_sub hpa hqb'

/-- C8 witness: a concrete evaluation with `p = (1,0,0)` and `q = (0,2,0)`. -/
theorem c8_support_minkowski_witness :
    support [(⟨3, 0, 0⟩ : Vec3 ℤ), ⟨1, 0, 0⟩] [⟨0, 1, 0⟩, ⟨0, 2, 0⟩] ⟨1, 0, 0⟩
      = farthest [(⟨3, 0, 0⟩ : Vec3 ℤ), ⟨1, 0, 0⟩] ⟨1, 0, 0⟩
        - farthest [(⟨0, 1, 0⟩ : Vec3 ℤ), ⟨0, 2, 0⟩] (-⟨1, 0, 0⟩)
    ∧ dot ((⟨1, 0, 0⟩ : Vec3 ℤ) - ⟨0, 2, 0⟩) ⟨1, 0, 0⟩
      ≤ dot (support [(⟨3, 0, 0⟩ : Vec3 ℤ), ⟨1, 0, 0⟩] [⟨0, 1, 0⟩, ⟨0, 2, 0⟩]
          ⟨1, 0, 0⟩) ⟨1, 0, 0⟩ :=
  ⟨(c8_support_minkowski [(⟨3, 0, 0⟩ : Vec3 ℤ), ⟨1, 0, 0⟩]
      [⟨0, 1, 0⟩, ⟨0, 2, 0⟩] ⟨1, 0, 0⟩).1,
   (c8_support_minkowski [(⟨3, 0, 0⟩ : Vec3 ℤ), ⟨1, 0, 0⟩]
      [⟨0, 1, 0⟩, ⟨0, 2, 0⟩] ⟨1, 0, 0⟩).2 ⟨1, 0, 0⟩ (by decide) ⟨0, 2, 0⟩
      (by decide)⟩

/-! ### The width invariant -/

/-- `check_tetra` only ever writes 2 or 3 into the width slot. -/
theorem check_tetra_w_mem (ap bp cp dp ao ab ac abc : Vec3 K) :
    (check_tetra ap bp cp dp ao ab ac abc).2.2.2.2 = 2
    ∨ (check_tetra ap bp cp dp ao ab ac abc).2.2.2.2 = 3 := by
  simp only [check_tetra]
  split_ifs <;> simp

/-- One `simplex` step keeps the width in {2, 3}. -/
theorem simplex_w_mem (st : GState K) (h : st.w = 2 ∨ st.w = 3) :
    (simplex st).2.w = 2 ∨ (simplex st).2.w = 3 := by
  rcases h with h | h
  · simp only [simplex]
    rw [if_pos h]
    split_ifs <;> simp [h]
  · have h2 : ¬ st.w = 2 := by omega
    simp only [simplex]
    rw [if_neg h2, if_pos h]
    split_ifs with ha hb hc
    · rcases hct : check_tetra st.ap st.bp st.cp st.dp (-st.ap) (st.bp - st.ap)
        (st.cp - st.ap) (cross (st.bp - st.ap) (st.cp - st.ap)) with
        ⟨b₂, c₂, d₂, s₂, w₂⟩
      have hw := check_tetra_w_mem st.ap st.bp st.cp st.dp (-st.ap)
        (st.bp - st.ap) (st.cp - st.ap) (cross (st.bp - st.ap) (st.cp - st.ap))
      rw [hct] at hw
      simpa using hw
    · rcases hct : check_tetra st.ap st.cp st.dp st.dp (-st.ap) (st.cp - st.ap)
        (st.dp - st.ap) (cross (st.cp - st.ap) (st.dp - st.ap)) with
        ⟨b₂, c₂, d₂, s₂, w₂⟩
      have hw := check_tetra_w_mem st.ap st.cp st.dp st.dp (-st.ap)
        (st.cp - st.ap) (st.dp - st.ap) (cross (st.cp - st.ap) (st.dp - st.ap))
      rw [hct] at hw
      simpa using hw
    · rcases hct : check_tetra st.ap st.dp st.bp st.dp (-st.ap) (st.dp - st.ap)
        (st.bp - st.ap) (cross (st.dp - st.ap) (st.bp - st.ap)) with
        ⟨b₂, c₂, d₂, s₂, w₂⟩
      have hw := check_tetra_w_mem st.ap st.dp st.bp st.dp (-st.ap)
        (st.dp - st.ap) (st.bp - st.ap) (cross (st.dp - st.ap) (st.bp - st.ap))
      rw [hct] at hw
      simpa using hw
    · exact Or.inr h

/-- A loop iteration that continues keeps the width in {2, 3}. -/
theorem step_w_mem (h1 h2 : List (Vec3 K)) (st st' : GState K)
    (h : st.w = 2 ∨ st.w = 3) (hstep : step h1 h2 st = Sum.inr st') :
    st'.w = 2 ∨ st'.w = 3 := by
  simp only [step] at hstep
  split_ifs at hstep
  rcases hs : simplex ({ st with ap := support h1 h2 st.sp }) with ⟨b, st''⟩
  rw [hs] at hstep
  have hw : st''.w = 2 ∨ st''.w = 3 := by
    have := simplex_w_mem ({ st with ap := support h1 h2 st.sp }) h
    rw [hs] at this
    exact this
  cases b
  · simp only [Sum.inr.injEq] at hstep
    exact hstep ▸ hw
  · exact absurd hstep (by simp)

/-- The state entering the loop has width 2. -/
theorem bgjkInit_w (h1 h2 : List (Vec3 K)) (st : GState K)
    (h : bgjkInit h1 h2 = some st) : st.w = 2 := by
  simp only [bgjkInit] at h
  by_cases hd :
      dot (support h1 h2 (-(support h1 h2 ones))) (-(support h1 h2 ones)) < 0
  · rw [if_pos hd] at h
    exact absurd h (by simp)
  · rw [if_neg hd] at h
    simp only [Option.some.injEq] at h
    rw [← h]

/-- C10: the loop of `bgjk` enters with width 2 and every reachable loop
state has width 2 or 3 — `simplex` only ever writes 3 and `check_tetra`
only 2 or 3 — so the catch-all match arm of `simplex` (taken only when the
width is neither 2 nor 3) is unreachable in any run of `bgjk`. -/
theorem c10_width_invariant (h1 h2 : List (Vec3 K)) (st0 : GState K) (n : Nat)
    (st : GState K) (hinit : bgjkInit h1 h2 = some st0)
    (hreach : stateAfter h1 h2 n st0 = some st) :
    st0.w = 2 ∧ (st.w = 2 ∨ st.w = 3) := by
  refine ⟨bgjkInit_w h1 h2 st0 hinit, ?_⟩
  induction n generalizing st with
  | zero =>
    simp only [stateAfter, Option.some.injEq] at hreach
    exact hreach ▸ Or.inl (bgjkInit_w h1 h2 st0 hinit)
  | succ n ih =>
    simp only [stateAfter] at hreach
    rcases hprev : stateAfter h1 h2 n st0 with _ | st'
    · rw [hprev] at hreach
      dsimp only at hreach
      exact Option.noConfusion hreach
    · rw [hprev] at hreach
      dsimp only at hreach
      rcases hstep : step h1 h2 st' with b | st''
      · rw [hstep] at hreach
        dsimp only at hreach
        exact Option.noConfusion hreach
      · rw [hstep] at hreach
        dsimp only at hreach
        simp only [Option.some.injEq] at hreach
        exact hreach ▸ step_w_mem h1 h2 st' st'' (ih st' hprev) hstep

/-- C10 witness: on the pair of single-point hulls at the origin, the loop
is entered with width 2 and after one iteration the state (reached via the
tetrahedron-promotion branch) has width 3. -/
theorem c10_width_invariant_witness :
    (⟨zero, zero, zero, zero, zero, 2⟩ : GState ℤ).w = 2
    ∧ ((⟨zero, zero, zero, zero, zero, 3⟩ : GState ℤ).w = 2
      ∨ (⟨zero, zero, zero, zero, zero, 3⟩ : GState ℤ).w = 3) :=
  c10_width_invariant [⟨0, 0, 0⟩] [⟨0, 0, 0⟩] ⟨zero, zero, zero, zero, zero, 2⟩
    1 ⟨zero, zero, zero, zero, zero, 3⟩ (by decide) (by decide)

end BGJK
